import Mathlib

/-!
Verification development for the offline visual-inertial 3D reconstruction
script (src/optimize_IMU_only.py).  The definitions below are a shallow
embedding of the parts of the script that the stated properties are about:
the GTSAM symbol encoding, the keyframe decimation (Python slicing by a
fixed stride), the IMU-factor emission loop, the prior factors, the
initial-values pass, the visual matching-cache toggle, and the shape of the
value returned by the optimizer invocation.

Components that the script imports from outside this repository
(`utils.preintegration.build_steps`, GTSAM's `PreintegratedImuMeasurements`
and `GaussNewtonOptimizer`) are modelled from the specification, as noted
in the corresponding doc comments.
-/

namespace OfflineVI

/-- 3-vectors over ℚ (the numeric payloads of the script; exact arithmetic
stands in for floating point, which none of the proved properties depend on). -/
abbrev Vec3 := Fin 3 → ℚ

/-- 3×3 matrices over ℚ, used for rotations. -/
abbrev Mat3 := Matrix (Fin 3) (Fin 3) ℚ

/-- An accelerometer/gyroscope bias pair (`imuBias_ConstantBias`). -/
abbrev BiasPair := Vec3 × Vec3

/-- From src line 71-72: `symbol(letter, index)` packs a variable name for the
GTSAM python bindings as an integer from the letter's character code and the
index (GTSAM packs the character code into the high bits above a 56-bit index). -/
def symbol (letter : Char) (index : ℕ) : ℕ := letter.toNat * 2 ^ 56 + index

/-- The module-level toggles of the script: `USE_VISUAL_FACTORS` (src line 21)
and `RECOMPUTE_MATCHING` (src line 144). -/
structure Config where
  useVisualFactors : Bool
  recomputeMatching : Bool
deriving DecidableEq

/-- From src line 86: the fixed keyframe decimation stride. -/
def PREINTEGRATE_EVERY_FRAMES : ℕ := 6

/-- Python extended slicing `l[::k]` (src line 88,
`preintegration_steps[::PREINTEGRATE_EVERY_FRAMES]`): the elements whose
position is a multiple of `k`, in order. -/
def sliceEvery (l : List ℕ) (k : ℕ) : List ℕ :=
  (List.range l.length).filterMap (fun i => if i % k = 0 then l.get? i else none)

/-- One emitted `gtsam.ImuFactor` (src lines 100-107): the keyframe pair it
spans and the list of IMU sample indices whose measurements were integrated
into the preintegrated measurement it carries. -/
structure ImuFactor where
  startIdx : ℕ
  endIdx : ℕ
  samples : List ℕ
deriving DecidableEq

/-- From src line 92: `zip(preintegration_steps[:-1], preintegration_steps[1:])`,
the iterator over consecutive keyframe pairs. -/
def imuFactorPairs (steps : List ℕ) : List (ℕ × ℕ) := steps.dropLast.zip steps.tail

/-- The exception kinds relevant to the script's failure behavior.
`alignmentError` is the error kind named by the specification's error-handling
design; no such exception class exists anywhere in src. `stopIteration` is
Python's built-in exhausted-iterator exception. `nameError` is Python's
unbound-name exception. -/
inductive PyErr
  | stopIteration
  | alignmentError
  | nameError
deriving DecidableEq

/-- The IMU factor loop, src lines 97-119.  State: the current keyframe pair
(`current_imu_factor_pair`), the remaining pairs of the iterator, and the
sample indices accumulated into the live preintegrated measurement since the
last reset.  For each sample index `i` (the loop enumerates `zip(acc, gyr)`):
if `i` equals the end of the current pair, a factor carrying the accumulated
measurement is emitted, the accumulator is reset, and the iterator is advanced
(`StopIteration` from this inner `next` is caught and ignored, src lines
113-116); afterwards sample `i` is integrated into the (possibly fresh)
accumulator (src line 119).  Returns the emitted factors in order and the
sample indices left in the live accumulator when the loop ends. -/
def imuLoop : ℕ × ℕ → List (ℕ × ℕ) → List ℕ → List ℕ → List ImuFactor × List ℕ
  | _, _, accum, [] => ([], accum)
  | cur, p :: ps, accum, i :: is =>
    if i = cur.2 then
      (⟨cur.1, cur.2, accum⟩ :: (imuLoop p ps [i] is).1, (imuLoop p ps [i] is).2)
    else
      imuLoop cur (p :: ps) (accum ++ [i]) is
  | cur, [], accum, i :: is =>
    if i = cur.2 then
      (⟨cur.1, cur.2, accum⟩ :: (imuLoop cur [] [i] is).1, (imuLoop cur [] [i] is).2)
    else
      imuLoop cur [] (accum ++ [i]) is

instance {ε α : Type} [DecidableEq ε] [DecidableEq α] : DecidableEq (Except ε α)
  | .ok a, .ok b =>
    if h : a = b then .isTrue (by rw [h]) else .isFalse (by simp [h])
  | .ok _, .error _ => .isFalse (by simp)
  | .error _, .ok _ => .isFalse (by simp)
  | .error e, .error e' =>
    if h : e = e' then .isTrue (by rw [h]) else .isFalse (by simp [h])

/-- Src lines 92-119 as a whole: the IMU-factor phase over `n` samples.  The
initial `next(imu_factor_pairs)` at src line 93 is outside any `try`: on an
empty pair iterator (fewer than two decimated keyframes) the uncaught
`StopIteration` aborts the program. -/
def runImuPhase (steps : List ℕ) (n : ℕ) : Except PyErr (List ImuFactor × List ℕ) :=
  match imuFactorPairs steps with
  | [] => .error .stopIteration
  | p :: ps => .ok (imuLoop p ps [] (List.range n))

-- sanity checks (loop behavior on small concrete inputs)
example : imuFactorPairs [0, 2, 4] = [(0, 2), (2, 4)] := by decide
example : runImuPhase [0, 2] 3 = .ok ([⟨0, 2, [0, 1]⟩], [2]) := by decide
example : runImuPhase [0, 2, 4] 5 = .ok ([⟨0, 2, [0, 1]⟩, ⟨2, 4, [2, 3]⟩], [4]) := by decide
example : runImuPhase [5] 10 = .error .stopIteration := by decide
example : sliceEvery [10, 11, 12, 13, 14, 15, 16, 17] 6 = [10, 16] := by decide

/-- A factor of the assembled `gtsam.NonlinearFactorGraph`.  Only the data the
stated properties refer to is kept: which kind of factor it is and which
symbolic keys it references (plus, for IMU factors, the integrated sample
range).  Noise models and the prior mean values are the same fixed
configuration constants for every factor of a given kind (src lines 32-64)
and are referenced by no property. -/
inductive GFactor where
  | imuF (f : ImuFactor)
  | priorPose (key : ℕ)
  | priorVel (key : ℕ)
  | priorBias (key : ℕ)
  | priorPoint (key : ℕ)
  | projection (poseKey camKey landmarkKey : ℕ)
deriving DecidableEq

/-- The symbolic keys referenced by a factor (src lines 100-106, 122-137,
155-162). -/
def factorKeys : GFactor → List ℕ
  | .imuF f => [symbol 'x' f.startIdx, symbol 'v' f.startIdx,
                symbol 'x' f.endIdx, symbol 'v' f.endIdx, symbol 'b' 0]
  | .priorPose k => [k]
  | .priorVel k => [k]
  | .priorBias k => [k]
  | .priorPoint k => [k]
  | .projection pk ck lk => [pk, ck, lk]

/-- All keys referenced by any factor of a graph. -/
def graphKeys (g : List GFactor) : List ℕ := g.flatMap factorKeys

/-- Src lines 144-151: the mode in which the matching cache file is opened in
each branch of the `RECOMPUTE_MATCHING` toggle.  The branch commented
"Compute matches and cache them to disk" opens `'rb'`; the branch commented
"Load precomputed matching from disk" opens `'wb'`. -/
inductive FileMode
  | read
  | write
deriving DecidableEq

/-- Src lines 148 and 151: the pickle operation performed in each branch. -/
inductive CacheOp
  | load
  | dump
deriving DecidableEq

def matchingCacheFileMode (recompute : Bool) : FileMode :=
  if recompute then .read else .write

def matchingCacheOp (recompute : Bool) : CacheOp :=
  if recompute then .load else .dump

/-- Src lines 144-151: the `landmarks_to_images` value that reaches the rest of
the visual path.  With `RECOMPUTE_MATCHING` true, `detect_and_match` runs (its
result is the `computed` argument) but the very next line rebinds
`landmarks_to_images` from `pickle.load` on the cache file (`cached`), so the
computed matching is discarded.  With it false, `pickle.dump(landmarks_to_images, f)`
reads a name that was never bound in that branch: a `NameError`. -/
def matchingResult (recompute : Bool) (computed cached : List (List ℕ)) :
    Except PyErr (List (List ℕ)) :=
  if recompute then .ok cached else .error .nameError

/-- Src lines 68-163: the assembled factor graph.  `steps` is the decimated
keyframe index list (`preintegration_steps` after src line 88), `n` the number
of IMU samples the factor loop walks, `computed`/`cached` the freshly computed
and the on-disk visual matching data (each landmark is the list of keyframe
positions observing it; the pixel coordinates feed only the factor's
measurement value, which no property references).  Order of factors follows
the source: IMU factors, initial pose/velocity priors and the bias prior
(src lines 122-127), the `m 0` point prior when visual factors are on
(src lines 129-131), the return-to-start pose/velocity priors on the last
keyframe (src lines 133-137), then the projection factors (src lines 153-163).
`steps.headI`/`steps.getLastD 0` render `preintegration_steps[0]` and
`preintegration_steps[-1]`; they are only reached when the IMU phase
succeeded, which forces `steps` to hold at least two entries. -/
def assembleGraph (cfg : Config) (steps : List ℕ) (n : ℕ)
    (computed cached : List (List ℕ)) : Except PyErr (List GFactor) :=
  match runImuPhase steps n with
  | .error e => .error e
  | .ok (imuFacs, _) =>
    let base :=
      imuFacs.map GFactor.imuF ++
      [GFactor.priorPose (symbol 'x' steps.headI),
       GFactor.priorVel (symbol 'v' steps.headI),
       GFactor.priorBias (symbol 'b' 0)] ++
      (if cfg.useVisualFactors then [GFactor.priorPoint (symbol 'm' 0)] else []) ++
      [GFactor.priorPose (symbol 'x' (steps.getLastD 0)),
       GFactor.priorVel (symbol 'v' (steps.getLastD 0))]
    if cfg.useVisualFactors then
      match matchingResult cfg.recomputeMatching computed cached with
      | .error e => .error e
      | .ok landmarks =>
        .ok (base ++
          landmarks.enum.flatMap (fun le =>
            le.2.map (fun imgIdx =>
              GFactor.projection (symbol 'x' (steps.getD imgIdx 0)) (symbol 'r' 0)
                (symbol 'm' le.1))))
    else .ok base

example :
    assembleGraph ⟨false, true⟩ [0, 2] 3 [] [] =
      .ok [.imuF ⟨0, 2, [0, 1]⟩,
           .priorPose (symbol 'x' 0), .priorVel (symbol 'v' 0),
           .priorBias (symbol 'b' 0),
           .priorPose (symbol 'x' 2), .priorVel (symbol 'v' 2)] := by decide

/-- One IMU sample as consumed by `integrateMeasurement`: measured linear
acceleration, measured angular velocity, and the time delta to the next
sample. -/
structure ImuSample where
  acc : Vec3
  gyr : Vec3
  dt : ℚ

/-- Modelled from the spec (§3 "Preintegrated Measurement", §4.1): the state of
GTSAM's `PreintegratedImuMeasurements`, which is an external library class and
not code under src/.  It holds the accumulated delta rotation / velocity /
position, the elapsed window time, the accumulated covariance, and the
Jacobians of each delta quantity with respect to the bias estimate. -/
structure PreintState where
  deltaR : Mat3
  deltaV : Vec3
  deltaP : Vec3
  deltaT : ℚ
  cov : Matrix (Fin 9) (Fin 9) ℚ
  jacRg : Mat3
  jacVa : Mat3
  jacVg : Mat3
  jacPa : Mat3
  jacPg : Mat3

/-- Modelled from the spec (§4.1): `reset()` / `resetIntegration()` clears the
delta rotation to the identity, delta velocity, delta position and elapsed time
to zero, and the covariance (and bias Jacobians) to zero. -/
def resetState : PreintState where
  deltaR := 1
  deltaV := 0
  deltaP := 0
  deltaT := 0
  cov := 0
  jacRg := 0
  jacVa := 0
  jacVg := 0
  jacPa := 0
  jacPg := 0

/-- Modelled from the spec (§4.1): the fixed data of the preintegration
algorithm — gravity, the bias estimate used during accumulation, and the
on-manifold exponential map.  The spec describes the covariance propagation
and the bias-Jacobian recursion only qualitatively ("a first-order error-state
recursion using configured noise densities"), so those two update rules are
carried as parameters; no stated property depends on their values. -/
structure PreintParams where
  gravity : Vec3
  accBiasHat : Vec3
  gyrBiasHat : Vec3
  expMap : Vec3 → Mat3
  covStep : PreintState → ImuSample → Matrix (Fin 9) (Fin 9) ℚ
  jacStep : PreintState → ImuSample → Mat3 × Mat3 × Mat3 × Mat3 × Mat3

/-- Modelled from the spec (§4.1): `integrate(acceleration, angular_velocity, dt)`.
The angular velocity is bias-corrected and integrated into the delta rotation
through the exponential map scaled by `dt`; the delta velocity accumulates the
bias-corrected, rotated acceleration scaled by `dt`; the delta position
accumulates the delta velocity scaled by `dt` plus a second-order acceleration
term; gravity's effect is applied in `predict` over the elapsed window time. -/
def integrate (p : PreintParams) (st : PreintState) (s : ImuSample) : PreintState :=
  let a := s.acc - p.accBiasHat
  let ω := s.gyr - p.gyrBiasHat
  let j := p.jacStep st s
  { deltaR := st.deltaR * p.expMap (s.dt • ω)
    deltaV := st.deltaV + s.dt • st.deltaR.mulVec a
    deltaP := st.deltaP + s.dt • st.deltaV + ((s.dt ^ 2) / 2) • st.deltaR.mulVec a
    deltaT := st.deltaT + s.dt
    cov := p.covStep st s
    jacRg := j.1
    jacVa := j.2.1
    jacVg := j.2.2.1
    jacPa := j.2.2.2.1
    jacPg := j.2.2.2.2 }

/-- A navigation state (`gtsam.NavState`): orientation, position, velocity. -/
structure NavState where
  rot : Mat3
  pos : Vec3
  vel : Vec3

/-- Modelled from the spec (§4.1): `predict(reference_state, bias)` composes
the accumulated delta onto the reference pose/velocity by the standard
strapdown mechanization — the delta quantities are rotated into the reference
frame and gravity's effect over the elapsed window time is added. -/
def predict (p : PreintParams) (st : PreintState) (ref : NavState)
    (_bias : BiasPair) : NavState where
  rot := ref.rot * st.deltaR
  pos := ref.pos + st.deltaT • ref.vel + ((st.deltaT ^ 2) / 2) • p.gravity
          + ref.rot.mulVec st.deltaP
  vel := ref.vel + st.deltaT • p.gravity + ref.rot.mulVec st.deltaV

/-- An entry of the `gtsam.Values` map. -/
inductive IValue where
  | pose (rot : Mat3) (pos : Vec3)
  | vel (v : Vec3)
  | biasV (b : BiasPair)
  | pointV (v : Vec3)

/-- Src lines 198-202: the hard-coded rough body-camera rotation guess. -/
def bodyCameraGuess : Mat3 := !![0, -1, 0; -1, 0, 0; 0, 0, -1]

/-- Src lines 189-195: the initial-values loop.  It enumerates the samples
with a fresh engine state; whenever the index `i` is a retained keyframe
(`i in preintegration_steps_set`), the pose and velocity of
`predict(initial_state, IMU_bias)` on the current accumulated state are
inserted under `x i` and `v i`; the sample is then integrated. -/
def ivLoop (steps : List ℕ) (p : PreintParams) (init : NavState) (bias : BiasPair) :
    ℕ → PreintState → List ImuSample → List (ℕ × IValue)
  | _, _, [] => []
  | i, st, s :: rest =>
    (if i ∈ steps then
      [(symbol 'x' i, IValue.pose (predict p st init bias).rot (predict p st init bias).pos),
       (symbol 'v' i, IValue.vel (predict p st init bias).vel)]
     else []) ++ ivLoop steps p init bias (i + 1) (integrate p st s) rest

/-- Src lines 179-206: the full initial-values map.  The bias key is seeded
once (src line 181); the loop fills pose/velocity guesses at retained
keyframes; when visual factors are on, the body-camera pose guess and one
random point guess per landmark (`np.random.rand(3)`, here the stream `rand`)
are appended (src lines 197-206). -/
def initialValues (cfg : Config) (steps : List ℕ) (samples : List ImuSample)
    (p : PreintParams) (init : NavState) (bias : BiasPair)
    (landmarks : List (List ℕ)) (rand : ℕ → Vec3) : List (ℕ × IValue) :=
  (symbol 'b' 0, IValue.biasV bias) ::
    (ivLoop steps p init bias 0 resetState samples ++
      (if cfg.useVisualFactors then
        (symbol 'r' 0, IValue.pose bodyCameraGuess 0) ::
          (List.range landmarks.length).map (fun i => (symbol 'm' i, IValue.pointV (rand i)))
       else []))

/-- The keys present in a values map. -/
def ivKeys (iv : List (ℕ × IValue)) : List ℕ := iv.map Prod.fst

/-- Modelled from the spec (§4.5, §6 "Output"): the state of GTSAM's
`GaussNewtonOptimizer` after `optimize()` ran — the final estimate together
with the convergence information (a converged flag and the iteration count)
that the optimizer keeps and the spec requires to be surfaced.  The optimizer
is an external library component, not code under src/. -/
structure OptimizerOutcome where
  estimate : List (ℕ × IValue)
  converged : Bool
  iterations : ℕ

/-- Src line 214: `optimization_result = optimizer.optimize()` — the value the
script binds is the estimate alone. -/
def optimizationResult (outcome : OptimizerOutcome) : List (ℕ × IValue) :=
  outcome.estimate

/-- Lookup in a values map (`Values.atPose3` / `atimuBias_ConstantBias`). -/
def valuesAt (vals : List (ℕ × IValue)) (k : ℕ) : Option IValue :=
  (vals.find? (fun e => e.1 == k)).map Prod.snd

/-- Src lines 216-243: everything the script exposes from the optimization —
the optimized pose plotted at each retained keyframe and the printed bias.
There is no field carrying a convergence status. -/
structure ProgramOutput where
  plottedPoses : List (Option IValue)
  printedBias : Option IValue

/-- Src lines 214-243: the program's caller-visible output as a function of
the optimizer outcome. -/
def programOutput (steps : List ℕ) (outcome : OptimizerOutcome) : ProgramOutput where
  plottedPoses := steps.map (fun i => valuesAt (optimizationResult outcome) (symbol 'x' i))
  printedBias := valuesAt (optimizationResult outcome) (symbol 'b' 0)

/-! ### Helper lemmas about the IMU factor loop -/

/-- The last element of `b :: tail`, phrased for structural induction. -/
def lastOf (b : ℕ) : List ℕ → ℕ
  | [] => b
  | c :: t => lastOf c t

lemma lastOf_eq_getLastD : ∀ (tail : List ℕ) (b : ℕ), lastOf b tail = (b :: tail).getLastD 0
  | [], _ => rfl
  | c :: t, b => by
    show lastOf c t = (b :: c :: t).getLastD 0
    rw [lastOf_eq_getLastD t c]
    simp [List.getLastD_cons]

lemma lastOf_mem : ∀ (tail : List ℕ) (b : ℕ), lastOf b tail ∈ b :: tail
  | [], b => by simp [lastOf]
  | c :: t, b => by
    have := lastOf_mem t c
    simp only [lastOf]
    exact List.mem_cons_of_mem b this

lemma le_lastOf : ∀ (tail : List ℕ) (b : ℕ), List.Chain' (· < ·) (b :: tail) → b ≤ lastOf b tail
  | [], _, _ => le_refl _
  | c :: t, b, h => by
    rw [List.chain'_cons] at h
    exact le_trans (le_of_lt h.1) (le_lastOf t c h.2)

lemma imuFactorPairs_cons₂ (a b : ℕ) (l : List ℕ) :
    imuFactorPairs (a :: b :: l) = (a, b) :: imuFactorPairs (b :: l) := by
  simp [imuFactorPairs]

lemma imuFactorPairs_singleton (b : ℕ) : imuFactorPairs [b] = [] := rfl

lemma mem_range'_bounds {m s n : ℕ} (h : m ∈ List.range' s n) : s ≤ m ∧ m < s + n := by
  obtain ⟨i, hi, rfl⟩ := List.mem_range'.mp h
  omega

/-- Samples whose index differs from the current pair's end just accumulate. -/
lemma imuLoop_skip : ∀ (seg : List ℕ) (cur : ℕ × ℕ) (rest : List (ℕ × ℕ))
    (accum idxs : List ℕ), (∀ i ∈ seg, i ≠ cur.2) →
    imuLoop cur rest accum (seg ++ idxs) = imuLoop cur rest (accum ++ seg) idxs
  | [], cur, rest, accum, idxs, _ => by simp
  | j :: seg, cur, rest, accum, idxs, h => by
    have hj : j ≠ cur.2 := h j (by simp)
    cases rest with
    | nil =>
      show imuLoop cur [] accum (j :: (seg ++ idxs)) = _
      simp only [imuLoop, if_neg hj]
      rw [imuLoop_skip seg cur [] (accum ++ [j]) idxs
        (fun i hi => h i (List.mem_cons_of_mem j hi))]
      simp
    | cons p ps =>
      show imuLoop cur (p :: ps) accum (j :: (seg ++ idxs)) = _
      simp only [imuLoop, if_neg hj]
      rw [imuLoop_skip seg cur (p :: ps) (accum ++ [j]) idxs
        (fun i hi => h i (List.mem_cons_of_mem j hi))]
      simp

/-- When no remaining sample index hits the current pair's end, nothing more is
emitted: everything accumulates into the live preintegrated measurement. -/
lemma imuLoop_noHit : ∀ (idxs : List ℕ) (cur : ℕ × ℕ) (rest : List (ℕ × ℕ))
    (accum : List ℕ), (∀ i ∈ idxs, i ≠ cur.2) →
    imuLoop cur rest accum idxs = ([], accum ++ idxs)
  | [], cur, rest, accum, _ => by cases rest <;> simp [imuLoop]
  | j :: idxs, cur, rest, accum, h => by
    have hj : j ≠ cur.2 := h j (by simp)
    cases rest with
    | nil =>
      simp only [imuLoop, if_neg hj]
      rw [imuLoop_noHit idxs cur [] (accum ++ [j])
        (fun i hi => h i (List.mem_cons_of_mem j hi))]
      simp
    | cons p ps =>
      simp only [imuLoop, if_neg hj]
      rw [imuLoop_noHit idxs cur (p :: ps) (accum ++ [j])
        (fun i hi => h i (List.mem_cons_of_mem j hi))]
      simp

/-- Splitting an index range at an interior point. -/
lemma range'_split (start len m : ℕ) (h1 : start ≤ m) (h2 : m < start + len) :
    List.range' start len =
      List.range' start (m - start) ++ (m :: List.range' (m + 1) (start + len - m - 1)) := by
  have e : List.range' m (start + len - m) =
      m :: List.range' (m + 1) (start + len - m - 1) := by
    have h : start + len - m = (start + len - m - 1) + 1 := by omega
    rw [h, List.range'_succ]
    simp
  calc List.range' start len
      = List.range' start ((start + len - m) + (m - start)) := by congr 1; omega
    _ = List.range' start (m - start) ++ List.range' (start + (m - start)) (start + len - m) := by
        rw [List.range'_append_1]
    _ = List.range' start (m - start) ++ List.range' m (start + len - m) := by congr 2; omega
    _ = _ := by rw [e]

/-- Master characterization of the IMU factor loop for a sorted keyframe tail.
Starting with current pair `(s, b)`, the remaining consecutive pairs of
`b :: tail`, accumulator `accum`, over the contiguous sample range
`[start, start+len)` that contains every remaining keyframe: one factor is
emitted per pair; the first carries `accum` plus the samples up to (excluding)
`b`; each later pair `(q₁, q₂)` carries exactly the samples `[q₁, q₂)`; and
the samples from the last keyframe on remain in the live accumulator,
never emitted. -/
lemma imuLoop_run : ∀ (tail : List ℕ) (s b : ℕ) (accum : List ℕ) (start len : ℕ),
    List.Chain' (· < ·) (b :: tail) → start ≤ b → lastOf b tail < start + len →
    imuLoop (s, b) (imuFactorPairs (b :: tail)) accum (List.range' start len) =
      (⟨s, b, accum ++ List.range' start (b - start)⟩ ::
        (imuFactorPairs (b :: tail)).map (fun q => ⟨q.1, q.2, List.range' q.1 (q.2 - q.1)⟩),
       List.range' (lastOf b tail) (start + len - lastOf b tail))
  | [], s, b, accum, start, len, _, hsb, hlast => by
    have hb : b < start + len := hlast
    rw [imuFactorPairs_singleton]
    rw [range'_split start len b hsb hb]
    rw [imuLoop_skip (List.range' start (b - start)) (s, b) [] accum _
      (fun i hi => by have := mem_range'_bounds hi; omega)]
    simp only [imuLoop, if_pos]
    rw [imuLoop_noHit (List.range' (b + 1) (start + len - b - 1)) (s, b) [] [b]
      (fun i hi => by have := mem_range'_bounds hi; omega)]
    have hrest : ([b] ++ List.range' (b + 1) (start + len - b - 1) : List ℕ) =
        List.range' b (start + len - b) := by
      have h : start + len - b = (start + len - b - 1) + 1 := by omega
      rw [h, List.range'_succ]
      rfl
    rw [hrest]
    simp [lastOf]
  | c :: t, s, b, accum, start, len, hchain, hsb, hlast => by
    rw [List.chain'_cons] at hchain
    have hbc : b < c := hchain.1
    have hcl : c ≤ lastOf c t := le_lastOf t c hchain.2
    have hlast' : lastOf b (c :: t) = lastOf c t := rfl
    rw [hlast'] at hlast
    have hb : b < start + len := by omega
    rw [imuFactorPairs_cons₂]
    rw [range'_split start len b hsb hb]
    rw [imuLoop_skip (List.range' start (b - start)) (s, b) _ accum _
      (fun i hi => by have := mem_range'_bounds hi; omega)]
    simp only [imuLoop, if_pos]
    rw [imuLoop_run t b c [b] (b + 1) (start + len - b - 1) hchain.2 (by omega)
      (by omega)]
    have hfirst : ([b] ++ List.range' (b + 1) (c - (b + 1)) : List ℕ) =
        List.range' b (c - b) := by
      have h : c - b = (c - (b + 1)) + 1 := by omega
      rw [h, List.range'_succ]
      rfl
    rw [hfirst]
    have hlen : b + 1 + (start + len - b - 1) = start + len := by omega
    rw [hlen]
    simp [lastOf]

/-- Concatenating the sample ranges of the consecutive pairs of a sorted
keyframe list yields the contiguous range from the first to the last keyframe. -/
lemma flatten_pairRanges : ∀ (t : List ℕ) (b : ℕ), List.Chain' (· < ·) (b :: t) →
    ((imuFactorPairs (b :: t)).map (fun q => List.range' q.1 (q.2 - q.1))).flatten
      = List.range' b (lastOf b t - b)
  | [], b, _ => by simp [imuFactorPairs_singleton, lastOf]
  | c :: t, b, h => by
    rw [List.chain'_cons] at h
    have hbc : b < c := h.1
    have hcl : c ≤ lastOf c t := le_lastOf t c h.2
    rw [imuFactorPairs_cons₂]
    simp only [List.map_cons, List.flatten_cons]
    rw [flatten_pairRanges t c h.2]
    have h1 : b + (c - b) = c := by omega
    have h2 : lastOf b (c :: t) = lastOf c t := rfl
    calc List.range' b (c - b) ++ List.range' c (lastOf c t - c)
        = List.range' b (c - b) ++ List.range' (b + (c - b)) (lastOf c t - c) := by rw [h1]
      _ = List.range' b ((lastOf c t - c) + (c - b)) := by rw [List.range'_append_1]
      _ = List.range' b (lastOf b (c :: t) - b) := by rw [h2]; congr 1; omega

/-- Every factor the loop emits spans either the current pair or one of the
remaining pairs, whatever the sample index list is. -/
lemma imuLoop_pairs_mem : ∀ (idxs : List ℕ) (cur : ℕ × ℕ) (rest : List (ℕ × ℕ))
    (accum : List ℕ) (f : ImuFactor), f ∈ (imuLoop cur rest accum idxs).1 →
    (f.startIdx, f.endIdx) = cur ∨ (f.startIdx, f.endIdx) ∈ rest
  | [], cur, rest, accum, f => by cases rest <;> simp [imuLoop]
  | i :: is, cur, [], accum, f => by
    simp only [imuLoop]
    by_cases hi : i = cur.2
    · simp only [if_pos hi, List.mem_cons]
      rintro (rfl | hmem)
      · left; rfl
      · exact imuLoop_pairs_mem is cur [] [i] f hmem
    · simp only [if_neg hi]
      exact imuLoop_pairs_mem is cur [] (accum ++ [i]) f
  | i :: is, cur, p :: ps, accum, f => by
    simp only [imuLoop]
    by_cases hi : i = cur.2
    · simp only [if_pos hi, List.mem_cons]
      rintro (rfl | hmem)
      · left; rfl
      · rcases imuLoop_pairs_mem is p ps [i] f hmem with h | h
        · right; exact Or.inl h
        · right; exact Or.inr h
    · simp only [if_neg hi]
      exact imuLoop_pairs_mem is cur (p :: ps) (accum ++ [i]) f

/-- Both components of a consecutive pair are elements of the list. -/
lemma imuFactorPairs_mem {steps : List ℕ} {q : ℕ × ℕ} (h : q ∈ imuFactorPairs steps) :
    q.1 ∈ steps ∧ q.2 ∈ steps := by
  have h1 := List.of_mem_zip h
  exact ⟨List.dropLast_subset _ h1.1, List.tail_subset _ h1.2⟩

/-- The keys inserted by the initial-values loop: `x i` and `v i` for every
sample index `i` in the walked range that is a retained keyframe. -/
lemma ivLoop_keys (steps : List ℕ) (p : PreintParams) (init : NavState)
    (bias : BiasPair) : ∀ (samples : List ImuSample) (j : ℕ) (st : PreintState),
    (ivLoop steps p init bias j st samples).map Prod.fst =
      ((List.range' j samples.length).filter (fun i => i ∈ steps)).flatMap
        (fun i => [symbol 'x' i, symbol 'v' i])
  | [], j, st => by simp [ivLoop]
  | s :: rest, j, st => by
    simp only [ivLoop, List.map_append, List.length_cons, List.range'_succ, List.filter_cons]
    rw [ivLoop_keys steps p init bias rest (j + 1) (integrate p st s)]
    by_cases hj : j ∈ steps
    · simp [hj]
    · simp [hj]

/-- Gluing adjacent index ranges. -/
lemma range'_glue (a b c : ℕ) (hab : a ≤ b) (hbc : b ≤ c) :
    List.range' a (b - a) ++ List.range' b (c - b) = List.range' a (c - a) := by
  have h1 : a + (b - a) = b := by omega
  calc List.range' a (b - a) ++ List.range' b (c - b)
      = List.range' a (b - a) ++ List.range' (a + (b - a)) (c - b) := by rw [h1]
    _ = List.range' a ((c - b) + (b - a)) := List.range'_append_1 a (b - a) (c - b)
    _ = List.range' a (c - a) := by congr 1; omega

lemma getLastD_cons₂ (a b : ℕ) (t : List ℕ) (d : ℕ) :
    (a :: b :: t : List ℕ).getLastD d = (b :: t : List ℕ).getLastD d := by
  simp [List.getLastD_cons]

lemma sliceEvery_headI (l : List ℕ) (k : ℕ) (h : l ≠ []) :
    (sliceEvery l k).headI = l.headI := by
  cases l with
  | nil => exact absurd rfl h
  | cons a t =>
    unfold sliceEvery
    rw [List.length_cons, List.range_succ_eq_map, List.filterMap_cons]
    simp

/-- For a nonempty list, the element access at the last position yields the
last element. -/
lemma get?_last_pos (l : List ℕ) (hne : l ≠ []) :
    l.get? (l.length - 1) = some (l.getLastD 0) := by
  rw [List.get?_eq_getElem?, ← List.getLast?_eq_getElem?, List.getLastD_eq_getLast?]
  cases hl : l.getLast? with
  | none => exact absurd (List.getLast?_eq_none_iff.mp hl) hne
  | some a => rfl

lemma sliceEvery_last_mem (l : List ℕ) (k : ℕ) (hne : l ≠ [])
    (hmod : (l.length - 1) % k = 0) : l.getLastD 0 ∈ sliceEvery l k := by
  unfold sliceEvery
  rw [List.mem_filterMap]
  refine ⟨l.length - 1, ?_, ?_⟩
  · rw [List.mem_range]
    have := List.length_pos.mpr hne
    omega
  · rw [if_pos hmod]
    exact get?_last_pos l hne

/-- For a duplicate-free keyframe list, the last element survives the stride-`k`
decimation exactly when the last position is a multiple of `k`. -/
lemma sliceEvery_last_mem_iff (l : List ℕ) (k : ℕ) (hne : l ≠ []) (hnd : l.Nodup) :
    l.getLastD 0 ∈ sliceEvery l k ↔ (l.length - 1) % k = 0 := by
  constructor
  · intro hmem
    rw [sliceEvery, List.mem_filterMap] at hmem
    obtain ⟨i, hi, hfi⟩ := hmem
    rw [List.mem_range] at hi
    by_cases hik : i % k = 0
    · rw [if_pos hik] at hfi
      have hieq : i = l.length - 1 := by
        apply List.getElem?_inj hi hnd
        rw [← List.get?_eq_getElem?, ← List.get?_eq_getElem?, hfi, get?_last_pos l hne]
      rw [← hieq]
      exact hik
    · rw [if_neg hik] at hfi
      exact absurd hfi (by simp)
  · exact sliceEvery_last_mem l k hne

/-! ### Claim theorems -/

/-- C1 (counterexample): with 3 IMU samples and retained keyframes `[0, 2]`,
the union of sample indices integrated into emitted motion factors is
`[0, 1]`, not `[0, N-1] = [0, 1, 2]`: sample 2 is integrated into the live
accumulator after the final factor closes and is never emitted, so the
per-pair ranges do not partition `[0, N-1]`. -/
theorem imu_sample_partition_counterexample :
    runImuPhase [0, 2] 3 = .ok ([⟨0, 2, [0, 1]⟩], [2]) ∧
    (([⟨0, 2, [0, 1]⟩] : List ImuFactor).map ImuFactor.samples).flatten ≠
      List.range 3 := by decide

/-- C1 (amended): for a strictly increasing decimated keyframe list with at
least two entries, all below the sample count `n`, the per-pair integrated
sample ranges of the emitted motion factors form an exact partition (their
concatenation, in emission order) of `[0, s_last - 1]` where `s_last` is the
last retained keyframe index — not of `[0, n-1]`: the samples from `s_last`
to `n - 1` are integrated into the live accumulator but never emitted in any
factor (they are the leftover), and samples before the first keyframe are
folded into the first pair's factor. -/
theorem imu_sample_partition_amended (steps : List ℕ) (n : ℕ)
    (facs : List ImuFactor) (leftover : List ℕ)
    (hlen : 2 ≤ steps.length) (hchain : List.Chain' (· < ·) steps)
    (hlast : steps.getLastD 0 < n)
    (hok : runImuPhase steps n = .ok (facs, leftover)) :
    (facs.map ImuFactor.samples).flatten = List.range (steps.getLastD 0) ∧
    leftover = List.range' (steps.getLastD 0) (n - steps.getLastD 0) := by
  match steps, hlen, hchain, hlast, hok with
  | s₀ :: s₁ :: t, _, hchain, hlast, hok =>
    rw [List.chain'_cons] at hchain
    have hL : (s₀ :: s₁ :: t : List ℕ).getLastD 0 = lastOf s₁ t := by
      rw [lastOf_eq_getLastD, getLastD_cons₂]
    rw [hL] at hlast ⊢
    have hrun : runImuPhase (s₀ :: s₁ :: t) n =
        .ok (imuLoop (s₀, s₁) (imuFactorPairs (s₁ :: t)) [] (List.range n)) := by
      unfold runImuPhase
      rw [imuFactorPairs_cons₂]
    rw [hrun, List.range_eq_range',
      imuLoop_run t s₀ s₁ [] 0 n hchain.2 (Nat.zero_le s₁) (by omega),
      Except.ok.injEq, Prod.mk.injEq] at hok
    obtain ⟨hfacs, hleft⟩ := hok
    constructor
    · rw [← hfacs]
      simp only [List.map_cons, List.map_map, List.flatten_cons]
      have hcomp : (ImuFactor.samples ∘
          fun q => (⟨q.1, q.2, List.range' q.1 (q.2 - q.1)⟩ : ImuFactor)) =
          fun q : ℕ × ℕ => List.range' q.1 (q.2 - q.1) := rfl
      rw [hcomp, flatten_pairRanges t s₁ hchain.2, List.range_eq_range']
      simp only [List.nil_append, Nat.sub_zero]
      have := range'_glue 0 s₁ (lastOf s₁ t) (Nat.zero_le _) (le_lastOf t s₁ hchain.2)
      simpa using this
    · rw [← hleft]
      congr 1
      omega

/-- Witness for C1 (amended) at a concrete input. -/
theorem imu_sample_partition_amended_witness :
    (2 ≤ ([0, 2] : List ℕ).length ∧ List.Chain' (· < ·) ([0, 2] : List ℕ) ∧
      ([0, 2] : List ℕ).getLastD 0 < 3 ∧
      runImuPhase [0, 2] 3 = .ok ([⟨0, 2, [0, 1]⟩], [2])) ∧
    (([⟨0, 2, [0, 1]⟩] : List ImuFactor).map ImuFactor.samples).flatten =
      List.range (([0, 2] : List ℕ).getLastD 0) ∧
    ([2] : List ℕ) = List.range' (([0, 2] : List ℕ).getLastD 0)
      (3 - ([0, 2] : List ℕ).getLastD 0) :=
  ⟨⟨by decide, by simp [List.chain'_cons], by decide, by decide⟩,
    imu_sample_partition_amended [0, 2] 3 [⟨0, 2, [0, 1]⟩] [2]
      (by decide) (by simp [List.chain'_cons]) (by decide) (by decide)⟩

/-- C2 (counterexample): for a keyframe index list of length 8, Python slicing
by the stride 6 keeps positions 0 and 6 only: the first index is retained but
the last one (17, at position 7) is not. -/
theorem keyframe_decimation_counterexample :
    sliceEvery [10, 11, 12, 13, 14, 15, 16, 17] PREINTEGRATE_EVERY_FRAMES = [10, 16] ∧
    ([10, 11, 12, 13, 14, 15, 16, 17] : List ℕ).getLastD 0 = 17 ∧
    (17 : ℕ) ∉ sliceEvery [10, 11, 12, 13, 14, 15, 16, 17] PREINTEGRATE_EVERY_FRAMES := by
  decide

/-- C2 (amended): for a duplicate-free keyframe index list (keyframe indices
are strictly increasing), sub-sampling by the fixed stride always retains the
first index of the full sequence; the last index is retained IF AND ONLY IF
the last position is a multiple of the stride
(`(length - 1) % PREINTEGRATE_EVERY_FRAMES = 0`) — otherwise the last
keyframe is dropped. -/
theorem keyframe_decimation_amended (l : List ℕ) (hne : l ≠ []) (hnd : l.Nodup) :
    (sliceEvery l PREINTEGRATE_EVERY_FRAMES).headI = l.headI ∧
    (l.getLastD 0 ∈ sliceEvery l PREINTEGRATE_EVERY_FRAMES ↔
      (l.length - 1) % PREINTEGRATE_EVERY_FRAMES = 0) :=
  ⟨sliceEvery_headI l _ hne, sliceEvery_last_mem_iff l _ hne hnd⟩

/-- Witness for C2 (amended) at a concrete input. -/
theorem keyframe_decimation_amended_witness :
    (([20, 21, 22, 23, 24, 25, 26] : List ℕ) ≠ [] ∧
      ([20, 21, 22, 23, 24, 25, 26] : List ℕ).Nodup) ∧
    ((sliceEvery [20, 21, 22, 23, 24, 25, 26] PREINTEGRATE_EVERY_FRAMES).headI =
        ([20, 21, 22, 23, 24, 25, 26] : List ℕ).headI ∧
      (([20, 21, 22, 23, 24, 25, 26] : List ℕ).getLastD 0 ∈
          sliceEvery [20, 21, 22, 23, 24, 25, 26] PREINTEGRATE_EVERY_FRAMES ↔
        (([20, 21, 22, 23, 24, 25, 26] : List ℕ).length - 1) %
          PREINTEGRATE_EVERY_FRAMES = 0)) :=
  ⟨⟨by decide, by decide⟩,
    keyframe_decimation_amended [20, 21, 22, 23, 24, 25, 26] (by decide) (by decide)⟩

/-- C3 (counterexample): with keyframes `[0, 2, 4]` over 5 samples, the
boundary sample at index 2 (the end of the pair `(0, 2)`) is NOT integrated
into the measurement of the factor it closes (which carries `[0, 1]`); it is
integrated into the next pair's measurement (the factor for `(2, 4)` carries
`[2, 3]`). -/
theorem boundary_sample_counterexample :
    runImuPhase [0, 2, 4] 5 = .ok ([⟨0, 2, [0, 1]⟩, ⟨2, 4, [2, 3]⟩], [4]) ∧
    (2 : ℕ) ∉ (⟨0, 2, [0, 1]⟩ : ImuFactor).samples ∧
    (2 : ℕ) ∈ (⟨2, 4, [2, 3]⟩ : ImuFactor).samples := by decide

/-- C3 (amended): exactly one motion factor is emitted per consecutive
retained keyframe pair, in order, each referencing pose and velocity at its
two endpoints plus the shared bias key; the factor for pair `(s, e)` carries
the samples `[s, e-1]` (the first factor additionally absorbs any samples
before the first keyframe), so the boundary sample at index `e` is integrated
into the NEXT pair's measurement — the factor it opens, not the one it
closes. -/
theorem boundary_sample_amended (steps : List ℕ) (n : ℕ) (s₀ s₁ : ℕ) (t : List ℕ)
    (facs : List ImuFactor) (leftover : List ℕ)
    (hsteps : steps = s₀ :: s₁ :: t) (hchain : List.Chain' (· < ·) steps)
    (hlast : steps.getLastD 0 < n)
    (hok : runImuPhase steps n = .ok (facs, leftover)) :
    facs = ⟨s₀, s₁, List.range s₁⟩ ::
      (imuFactorPairs (s₁ :: t)).map (fun q => ⟨q.1, q.2, List.range' q.1 (q.2 - q.1)⟩) ∧
    ∀ f ∈ facs, factorKeys (GFactor.imuF f) =
      [symbol 'x' f.startIdx, symbol 'v' f.startIdx,
       symbol 'x' f.endIdx, symbol 'v' f.endIdx, symbol 'b' 0] := by
  subst hsteps
  rw [List.chain'_cons] at hchain
  have hL : (s₀ :: s₁ :: t : List ℕ).getLastD 0 = lastOf s₁ t := by
    rw [lastOf_eq_getLastD, getLastD_cons₂]
  rw [hL] at hlast
  have hrun : runImuPhase (s₀ :: s₁ :: t) n =
      .ok (imuLoop (s₀, s₁) (imuFactorPairs (s₁ :: t)) [] (List.range n)) := by
    unfold runImuPhase
    rw [imuFactorPairs_cons₂]
  rw [hrun, List.range_eq_range',
    imuLoop_run t s₀ s₁ [] 0 n hchain.2 (Nat.zero_le s₁) (by omega),
    Except.ok.injEq, Prod.mk.injEq] at hok
  obtain ⟨hfacs, _⟩ := hok
  constructor
  · rw [← hfacs, List.range_eq_range']
    simp
  · intro f _
    rfl

/-- Witness for C3 (amended) at a concrete input. -/
theorem boundary_sample_amended_witness :
    (List.Chain' (· < ·) ([0, 2, 4] : List ℕ) ∧
      ([0, 2, 4] : List ℕ).getLastD 0 < 5 ∧
      runImuPhase [0, 2, 4] 5 = .ok ([⟨0, 2, [0, 1]⟩, ⟨2, 4, [2, 3]⟩], [4])) ∧
    ([⟨0, 2, [0, 1]⟩, ⟨2, 4, [2, 3]⟩] : List ImuFactor) = ⟨0, 2, List.range 2⟩ ::
      (imuFactorPairs [2, 4]).map (fun q => ⟨q.1, q.2, List.range' q.1 (q.2 - q.1)⟩) ∧
    ∀ f ∈ ([⟨0, 2, [0, 1]⟩, ⟨2, 4, [2, 3]⟩] : List ImuFactor),
      factorKeys (GFactor.imuF f) =
        [symbol 'x' f.startIdx, symbol 'v' f.startIdx,
         symbol 'x' f.endIdx, symbol 'v' f.endIdx, symbol 'b' 0] :=
  ⟨⟨by simp [List.chain'_cons], by decide, by decide⟩,
    boundary_sample_amended [0, 2, 4] 5 0 2 [4] [⟨0, 2, [0, 1]⟩, ⟨2, 4, [2, 3]⟩] [4]
      rfl (by simp [List.chain'_cons]) (by decide) (by decide)⟩

/-- C5 (counterexample): with a single decimated keyframe `[5]`, the program
does not fail with an `AlignmentError`: the uncaught exception at
`next(imu_factor_pairs)` is a `StopIteration`, a different exception kind. -/
theorem degenerate_keyframes_counterexample :
    assembleGraph ⟨false, true⟩ [5] 10 [] [] = .error .stopIteration ∧
    PyErr.stopIteration ≠ PyErr.alignmentError := by decide

/-- C5 (amended): whenever the decimated keyframe list holds fewer than two
entries, graph construction aborts (no partial graph is returned) with the
uncaught `StopIteration` raised by `next()` on the empty pair iterator at src
line 93 — not with an `AlignmentError`, which does not exist in the code. -/
theorem degenerate_keyframes_amended (cfg : Config) (steps : List ℕ) (n : ℕ)
    (computed cached : List (List ℕ)) (h : steps.length < 2) :
    assembleGraph cfg steps n computed cached = .error .stopIteration := by
  have hpairs : imuFactorPairs steps = [] := by
    cases steps with
    | nil => rfl
    | cons a t =>
      cases t with
      | nil => rfl
      | cons b t' =>
        simp [List.length_cons] at h
        omega
  unfold assembleGraph runImuPhase
  rw [hpairs]

/-- Witness for C5 (amended) at a concrete input. -/
theorem degenerate_keyframes_amended_witness :
    ([3] : List ℕ).length < 2 ∧
    assembleGraph ⟨false, false⟩ [3] 5 [] [] = .error .stopIteration :=
  ⟨by decide, degenerate_keyframes_amended ⟨false, false⟩ [3] 5 [] [] (by decide)⟩

/-- Fixed demonstration engine parameters: zero gravity and biases, the
constant exponential map at the identity, zero covariance and Jacobian
updates. -/
def pDemo : PreintParams where
  gravity := 0
  accBiasHat := 0
  gyrBiasHat := 0
  expMap := fun _ => 1
  covStep := fun _ _ => 0
  jacStep := fun _ _ => (0, 0, 0, 0, 0)

/-- Demonstration navigation state: identity rotation, zero position and
velocity. -/
def navDemo : NavState where
  rot := 1
  pos := 0
  vel := 0

/-- A demonstration IMU sample. -/
def sampleDemo : ImuSample where
  acc := 0
  gyr := 0
  dt := 1

/-- The graph assembled for keyframes `[0, 2]` over 3 samples without visual
factors. -/
def demoGraphNoVisual : List GFactor :=
  [.imuF ⟨0, 2, [0, 1]⟩,
   .priorPose (symbol 'x' 0), .priorVel (symbol 'v' 0), .priorBias (symbol 'b' 0),
   .priorPose (symbol 'x' 2), .priorVel (symbol 'v' 2)]

/-- The graph assembled for keyframes `[0, 2]` over 3 samples with visual
factors on and an empty cached matching. -/
def demoGraphVisual : List GFactor :=
  [.imuF ⟨0, 2, [0, 1]⟩,
   .priorPose (symbol 'x' 0), .priorVel (symbol 'v' 0), .priorBias (symbol 'b' 0),
   .priorPoint (symbol 'm' 0),
   .priorPose (symbol 'x' 2), .priorVel (symbol 'v' 2)]

/-- The key list of the initial-values map in the IMU-only configuration:
the bias key followed by `x i`/`v i` for every walked sample index `i` that
is a retained keyframe. -/
lemma ivKeys_initialValues (rm : Bool) (steps : List ℕ) (samples : List ImuSample)
    (p : PreintParams) (init : NavState) (bias : BiasPair)
    (landmarks : List (List ℕ)) (rand : ℕ → Vec3) :
    ivKeys (initialValues ⟨false, rm⟩ steps samples p init bias landmarks rand) =
      symbol 'b' 0 ::
        ((List.range' 0 samples.length).filter (fun i => i ∈ steps)).flatMap
          (fun i => [symbol 'x' i, symbol 'v' i]) := by
  unfold initialValues ivKeys
  simp only [List.map_cons, List.map_append]
  rw [ivLoop_keys steps p init bias samples 0 resetState]
  simp

/-- Both the `x` and the `v` key of a retained keyframe below the sample count
appear among the loop-inserted keys. -/
lemma xv_key_mem {steps : List ℕ} {n : ℕ} (i : ℕ) (hi : i ∈ steps) (hilt : i < n) :
    symbol 'x' i ∈ ((List.range' 0 n).filter (fun j => j ∈ steps)).flatMap
        (fun j => [symbol 'x' j, symbol 'v' j]) ∧
    symbol 'v' i ∈ ((List.range' 0 n).filter (fun j => j ∈ steps)).flatMap
        (fun j => [symbol 'x' j, symbol 'v' j]) := by
  have hmem : i ∈ (List.range' 0 n).filter (fun j => j ∈ steps) := by
    rw [List.mem_filter]
    refine ⟨List.mem_range'.mpr ⟨i, hilt, by omega⟩, by simpa using hi⟩
  exact ⟨List.mem_flatMap.mpr ⟨i, hmem, by simp⟩,
    List.mem_flatMap.mpr ⟨i, hmem, by simp⟩⟩

/-- C4: in the IMU-only configuration, whenever the factor graph is assembled
(so that the run reaches the optimizer), every symbolic key referenced by any
factor of the graph — pose/velocity keys at keyframe-pair endpoints and at the
first and last keyframe, plus the shared bias key — has an entry in the
initial-values map; the graph holds no orphan key.  The hypotheses say the
keyframe indices address existing samples and that the two passes walk the
same sample stream. -/
theorem graph_keys_covered (rm : Bool) (steps : List ℕ) (n : ℕ)
    (computed cached : List (List ℕ)) (samples : List ImuSample)
    (p : PreintParams) (init : NavState) (bias : BiasPair)
    (landmarks : List (List ℕ)) (rand : ℕ → Vec3) (g : List GFactor)
    (hlt : ∀ s ∈ steps, s < n) (hn : samples.length = n)
    (hok : assembleGraph ⟨false, rm⟩ steps n computed cached = .ok g) :
    ∀ k ∈ graphKeys g,
      k ∈ ivKeys (initialValues ⟨false, rm⟩ steps samples p init bias landmarks rand) := by
  intro k hk
  rw [ivKeys_initialValues rm steps samples p init bias landmarks rand, hn]
  unfold assembleGraph at hok
  cases hr : runImuPhase steps n with
  | error e =>
    rw [hr] at hok
    exact absurd hok (by simp)
  | ok res =>
    rw [hr] at hok
    obtain ⟨imuFacs, leftover⟩ := res
    simp only [Bool.false_eq_true, ite_false, Except.ok.injEq] at hok
    have hne : steps ≠ [] := by
      intro he
      subst he
      rw [show runImuPhase [] n = .error .stopIteration from rfl] at hr
      exact absurd hr (by simp)
    have hhead : steps.headI ∈ steps := by
      cases steps with
      | nil => exact absurd rfl hne
      | cons a t => exact List.mem_cons_self a t
    have hlastmem : steps.getLastD 0 ∈ steps := by
      cases steps with
      | nil => exact absurd rfl hne
      | cons a t =>
        rw [List.getLastD_cons]
        exact List.getLastD_mem_cons t a
    have himu : ∀ f ∈ imuFacs, f.startIdx ∈ steps ∧ f.endIdx ∈ steps := by
      intro f hf
      unfold runImuPhase at hr
      cases hp : imuFactorPairs steps with
      | nil =>
        rw [hp] at hr
        exact absurd hr (by simp)
      | cons q qs =>
        rw [hp] at hr
        simp only [Except.ok.injEq] at hr
        have hf' : f ∈ (imuLoop q qs [] (List.range n)).1 := by
          rw [hr]
          exact hf
        rcases imuLoop_pairs_mem (List.range n) q qs [] f hf' with hq | hq
        · have : (f.startIdx, f.endIdx) ∈ imuFactorPairs steps := by
            rw [hp, hq]
            exact List.mem_cons_self q qs
          exact imuFactorPairs_mem this
        · have : (f.startIdx, f.endIdx) ∈ imuFactorPairs steps := by
            rw [hp]
            exact List.mem_cons_of_mem q hq
          exact imuFactorPairs_mem this
    subst hok
    rw [graphKeys, List.mem_flatMap] at hk
    obtain ⟨fac, hfac, hkin⟩ := hk
    simp only [List.mem_append, List.mem_map, List.mem_cons,
      List.not_mem_nil, or_false] at hfac
    rcases hfac with ((⟨f, hf, rfl⟩ | hfac) | hfac)
    · -- an IMU motion factor
      obtain ⟨hs, he⟩ := himu f hf
      simp only [factorKeys, List.mem_cons, List.not_mem_nil, or_false] at hkin
      rcases hkin with rfl | rfl | rfl | rfl | rfl
      · exact List.mem_cons_of_mem _ (xv_key_mem f.startIdx hs (hlt _ hs)).1
      · exact List.mem_cons_of_mem _ (xv_key_mem f.startIdx hs (hlt _ hs)).2
      · exact List.mem_cons_of_mem _ (xv_key_mem f.endIdx he (hlt _ he)).1
      · exact List.mem_cons_of_mem _ (xv_key_mem f.endIdx he (hlt _ he)).2
      · exact List.mem_cons_self _ _
    · -- initial priors / bias prior
      rcases hfac with rfl | rfl | rfl
      · simp only [factorKeys, List.mem_cons, List.not_mem_nil, or_false] at hkin
        subst hkin
        exact List.mem_cons_of_mem _ (xv_key_mem _ hhead (hlt _ hhead)).1
      · simp only [factorKeys, List.mem_cons, List.not_mem_nil, or_false] at hkin
        subst hkin
        exact List.mem_cons_of_mem _ (xv_key_mem _ hhead (hlt _ hhead)).2
      · simp only [factorKeys, List.mem_cons, List.not_mem_nil, or_false] at hkin
        subst hkin
        exact List.mem_cons_self _ _
    · -- return-to-start priors
      rcases hfac with rfl | rfl
      · simp only [factorKeys, List.mem_cons, List.not_mem_nil, or_false] at hkin
        subst hkin
        exact List.mem_cons_of_mem _ (xv_key_mem _ hlastmem (hlt _ hlastmem)).1
      · simp only [factorKeys, List.mem_cons, List.not_mem_nil, or_false] at hkin
        subst hkin
        exact List.mem_cons_of_mem _ (xv_key_mem _ hlastmem (hlt _ hlastmem)).2

/-- Witness for C4 at a concrete input. -/
theorem graph_keys_covered_witness :
    ((∀ s ∈ ([0, 2] : List ℕ), s < 3) ∧
      ([⟨0, 0, 1⟩, ⟨0, 0, 1⟩, ⟨0, 0, 1⟩] : List ImuSample).length = 3 ∧
      assembleGraph ⟨false, true⟩ [0, 2] 3 [] [] = .ok demoGraphNoVisual) ∧
    ∀ k ∈ graphKeys demoGraphNoVisual,
      k ∈ ivKeys (initialValues ⟨false, true⟩ [0, 2] [⟨0, 0, 1⟩, ⟨0, 0, 1⟩, ⟨0, 0, 1⟩]
        pDemo navDemo (0, 0) [] (fun _ => 0)) :=
  ⟨⟨by decide, rfl, by decide⟩,
    graph_keys_covered true [0, 2] 3 [] [] [⟨0, 0, 1⟩, ⟨0, 0, 1⟩, ⟨0, 0, 1⟩]
      pDemo navDemo (0, 0) [] (fun _ => 0) demoGraphNoVisual
      (by decide) rfl (by decide)⟩

/-- C6: calling `predict()` immediately after `reset()`, with zero
`integrate()` calls in between, returns exactly the reference state unchanged;
in particular, when index 0 is a retained keyframe, the first initial values
inserted by the loop are exactly the configured initial state's pose and
velocity under the keys `x 0` and `v 0`. -/
theorem zero_window_predict (p : PreintParams) (ref init : NavState)
    (bias : BiasPair) (steps : List ℕ) (s : ImuSample) (rest : List ImuSample)
    (h0 : 0 ∈ steps) :
    predict p resetState ref bias = ref ∧
    (ivLoop steps p init bias 0 resetState (s :: rest)).take 2 =
      [(symbol 'x' 0, IValue.pose init.rot init.pos),
       (symbol 'v' 0, IValue.vel init.vel)] := by
  have hpred : ∀ r : NavState, predict p resetState r bias = r := by
    intro r
    cases r with
    | mk rot pos vel =>
      unfold predict resetState
      simp [Matrix.mulVec_zero]
  refine ⟨hpred ref, ?_⟩
  simp only [ivLoop, if_pos h0]
  rw [hpred init]
  simp

/-- Witness for C6 at a concrete input. -/
theorem zero_window_predict_witness :
    (0 ∈ ([0] : List ℕ)) ∧
    (predict pDemo resetState navDemo (0, 0) = navDemo ∧
      (ivLoop [0] pDemo navDemo (0, 0) 0 resetState [sampleDemo]).take 2 =
        [(symbol 'x' 0, IValue.pose navDemo.rot navDemo.pos),
         (symbol 'v' 0, IValue.vel navDemo.vel)]) :=
  ⟨by decide, zero_window_predict pDemo navDemo navDemo (0, 0) [0] sampleDemo [] (by decide)⟩

/-- C7 (counterexample): two optimizer outcomes with the same estimate but
opposite convergence statuses produce identical caller-visible outputs — src
line 214 binds only the estimate returned by `optimize()` and nothing later
reads a converged flag or iteration count, so the status is discarded,
contradicting the claim that the result carries a non-convergence status. -/
theorem convergence_status_counterexample :
    ({ estimate := [], converged := true, iterations := 1 } : OptimizerOutcome).converged ≠
      ({ estimate := [], converged := false, iterations := 99 } : OptimizerOutcome).converged ∧
    programOutput [0, 2] { estimate := [], converged := true, iterations := 1 } =
      programOutput [0, 2] { estimate := [], converged := false, iterations := 99 } :=
  ⟨by simp, rfl⟩

/-- C7 (amended): the caller-visible output of the script (plotted keyframe
poses and printed bias) is a function of the optimizer's estimate alone; the
convergence status and iteration count are discarded, never surfaced. -/
theorem convergence_status_amended (steps : List ℕ) (o₁ o₂ : OptimizerOutcome)
    (h : o₁.estimate = o₂.estimate) :
    programOutput steps o₁ = programOutput steps o₂ := by
  unfold programOutput optimizationResult
  rw [h]

/-- Witness for C7 (amended) at a concrete input. -/
theorem convergence_status_amended_witness :
    (⟨[(symbol 'b' 0, IValue.biasV (0, 0))], true, 3⟩ : OptimizerOutcome).estimate =
      (⟨[(symbol 'b' 0, IValue.biasV (0, 0))], false, 100⟩ : OptimizerOutcome).estimate ∧
    programOutput [0] (⟨[(symbol 'b' 0, IValue.biasV (0, 0))], true, 3⟩ : OptimizerOutcome) =
      programOutput [0] (⟨[(symbol 'b' 0, IValue.biasV (0, 0))], false, 100⟩ : OptimizerOutcome) :=
  ⟨rfl, convergence_status_amended [0] _ _ rfl⟩

/-- C8 (counterexample): across every setting of the script's two module-level
toggles, whenever a graph is assembled at all it contains the return-to-start
pose/velocity priors on the last keyframe (the fourth toggle combination
crashes before assembling a graph).  No configuration toggle exists with the
priors present under one setting and absent under the other: removing them
requires editing the code. -/
theorem return_to_start_priors_counterexample :
    assembleGraph ⟨false, false⟩ [0, 2] 3 [] [] = .ok demoGraphNoVisual ∧
    assembleGraph ⟨false, true⟩ [0, 2] 3 [] [] = .ok demoGraphNoVisual ∧
    assembleGraph ⟨true, true⟩ [0, 2] 3 [] [] = .ok demoGraphVisual ∧
    assembleGraph ⟨true, false⟩ [0, 2] 3 [] [] = .error .nameError ∧
    GFactor.priorPose (symbol 'x' 2) ∈ demoGraphNoVisual ∧
    GFactor.priorVel (symbol 'v' 2) ∈ demoGraphNoVisual ∧
    GFactor.priorPose (symbol 'x' 2) ∈ demoGraphVisual ∧
    GFactor.priorVel (symbol 'v' 2) ∈ demoGraphVisual := by decide

/-- C8 (amended): the return-to-start pose and velocity priors on the last
keyframe are pushed unconditionally (src lines 133-137): under every
configuration, every successfully assembled graph contains them; they are not
exposed as a toggleable factor. -/
theorem return_to_start_priors_amended (cfg : Config) (steps : List ℕ) (n : ℕ)
    (computed cached : List (List ℕ)) (g : List GFactor)
    (hok : assembleGraph cfg steps n computed cached = .ok g) :
    GFactor.priorPose (symbol 'x' (steps.getLastD 0)) ∈ g ∧
    GFactor.priorVel (symbol 'v' (steps.getLastD 0)) ∈ g := by
  unfold assembleGraph at hok
  cases hr : runImuPhase steps n with
  | error e =>
    rw [hr] at hok
    exact absurd hok (by simp)
  | ok res =>
    rw [hr] at hok
    obtain ⟨imuFacs, leftover⟩ := res
    by_cases hv : cfg.useVisualFactors
    · simp only [hv, if_true] at hok
      cases hm : matchingResult cfg.recomputeMatching computed cached with
      | error e =>
        rw [hm] at hok
        exact absurd hok (by simp)
      | ok lms =>
        rw [hm] at hok
        simp only [Except.ok.injEq] at hok
        subst hok
        constructor <;> simp
    · simp only [hv, if_false, Bool.false_eq_true] at hok
      simp only [Except.ok.injEq] at hok
      subst hok
      constructor <;> simp

/-- Witness for C8 (amended) at a concrete input. -/
theorem return_to_start_priors_amended_witness :
    assembleGraph ⟨false, false⟩ [0, 2] 3 [] [] = .ok demoGraphNoVisual ∧
    (GFactor.priorPose (symbol 'x' (([0, 2] : List ℕ).getLastD 0)) ∈ demoGraphNoVisual ∧
      GFactor.priorVel (symbol 'v' (([0, 2] : List ℕ).getLastD 0)) ∈ demoGraphNoVisual) :=
  ⟨by decide,
    return_to_start_priors_amended ⟨false, false⟩ [0, 2] 3 [] [] demoGraphNoVisual
      (by decide)⟩

/-- C9: the recompute/load toggle of the visual path has inverted file
semantics — when `RECOMPUTE_MATCHING` is true, the branch labeled as computing
and caching opens the cache file in read mode and loads it, so the value used
downstream is the loaded cache and the freshly computed matching is discarded;
when it is false, the branch labeled as loading opens the file in write mode
and attempts to dump. -/
theorem matching_cache_inverted (computed cached : List (List ℕ)) :
    matchingCacheFileMode true = FileMode.read ∧
    matchingCacheOp true = CacheOp.load ∧
    matchingResult true computed cached = .ok cached ∧
    matchingCacheFileMode false = FileMode.write ∧
    matchingCacheOp false = CacheOp.dump :=
  ⟨rfl, rfl, rfl, rfl, rfl⟩

/-- C10: with `USE_VISUAL_FACTORS` false, building the factor graph and the
initial-values map is deterministic — the result is independent of the random
landmark-guess stream and of every other visual-path input (freshly computed
and cached matching data), which are the only non-deterministic inputs of the
script. -/
theorem build_deterministic (rm : Bool) (steps : List ℕ) (n : ℕ)
    (computed₁ cached₁ computed₂ cached₂ : List (List ℕ))
    (samples : List ImuSample) (p : PreintParams) (init : NavState)
    (bias : BiasPair) (lms₁ lms₂ : List (List ℕ)) (rand₁ rand₂ : ℕ → Vec3) :
    assembleGraph ⟨false, rm⟩ steps n computed₁ cached₁ =
      assembleGraph ⟨false, rm⟩ steps n computed₂ cached₂ ∧
    initialValues ⟨false, rm⟩ steps samples p init bias lms₁ rand₁ =
      initialValues ⟨false, rm⟩ steps samples p init bias lms₂ rand₂ := by
  constructor
  · unfold assembleGraph
    cases runImuPhase steps n <;> simp
  · unfold initialValues
    simp

end OfflineVI
